import Mathlib

/-!
Verification development for a benchmark-telemetry pipeline: a run
orchestrator that fans benchmark invocations out to external processes and
merges their per-iteration outputs, a log parser turning semi-structured
benchmark lines into metric records, an aggregation engine reducing record
groups to medians, a closed-form build-success probability model, and an
SVG chart renderer (line and stacked-area charts).

The Python sources are embedded shallowly: dictionaries become insertion
ordered association lists with in-place update (`pyInsert` / `pyGet`),
floats become rationals, file contents become lists of lines, a filesystem
becomes a partial map from paths to contents, and code that can raise is
modelled in `Except`.  String primitives (`split`, `startswith`,
`replace`, `lower`, ...) are implemented by structural recursion on
character lists so that every definition evaluates inside the kernel.
-/

set_option maxRecDepth 100000

/-- Values stored in a parsed row: Python floats/ints as rationals, strings,
and Python `None` (used by aggregation for absent group keys). -/
inductive Val where
  | num (q : ℚ)
  | str (s : String)
  | pynone
deriving DecidableEq

/-- A Python dict as an insertion-ordered association list. -/
abbrev Row := List (String × Val)

/-- Python dict assignment `d[k] = v`: update the existing binding in place,
else append a new binding at the end. -/
def pyInsert {κ β : Type} [DecidableEq κ] (k : κ) (v : β) :
    List (κ × β) → List (κ × β)
  | [] => [(k, v)]
  | (k', v') :: rest =>
      if k' = k then (k, v) :: rest else (k', v') :: pyInsert k v rest

/-- Python dict lookup `d.get(k)`: first (and, for dicts, only) binding. -/
def pyGet {κ β : Type} [DecidableEq κ] (k : κ) :
    List (κ × β) → Option β
  | [] => Option.none
  | (k', v) :: rest => if k' = k then some v else pyGet k rest

/-- Python `s.split(sep)` for a one-character separator. -/
def splitOnChar (c : Char) : List Char → List (List Char)
  | [] => [[]]
  | a :: as =>
      let r := splitOnChar c as
      if a = c then [] :: r
      else
        match r with
        | [] => [[a]]
        | h :: t => (a :: h) :: t

/-- Python `sep.join(parts)` for a one-character separator. -/
def joinWithChar (c : Char) : List (List Char) → List Char
  | [] => []
  | [x] => x
  | x :: xs => x ++ c :: joinWithChar c xs

/-- Python `s.startswith(p)`. -/
def startsWithL : List Char → List Char → Bool
  | [], _ => true
  | _ :: _, [] => false
  | p :: ps, a :: as => p = a && startsWithL ps as

/-- Leading sign of a Python numeric literal; returns (isNegative, rest). -/
def parseSign : List Char → Bool × List Char
  | '-' :: cs => (true, cs)
  | '+' :: cs => (false, cs)
  | cs => (false, cs)

/-- Decimal digits to a natural number. -/
def digitsToNat (ds : List Char) : ℕ :=
  ds.foldl (fun n c => n * 10 + (c.toNat - 48)) 0

/-- Python `float(s)`: optional sign, decimal mantissa with optional point,
optional exponent; `Option.none` models `ValueError`.  The decimal value
`±ip.fp × 10^(±e)` is assembled as a single exact fraction.  (Whitespace
padding, `inf`/`nan` and digit underscores are not needed by the pipeline's
inputs.) -/
def pyFloat (s : String) : Option ℚ :=
  let (neg, cs) := parseSign s.data
  let ip := cs.takeWhile Char.isDigit
  let cs1 := cs.dropWhile Char.isDigit
  let mk (fp rest : List Char) : Option ℚ :=
    let sgn : ℤ := if neg then -1 else 1
    let digits : ℤ := (digitsToNat (ip ++ fp) : ℤ)
    match rest with
    | [] => some (mkRat (sgn * digits) (10 ^ fp.length))
    | c :: cs2 =>
        if c = 'e' ∨ c = 'E' then
          let (eneg, cs3) := parseSign cs2
          let ed := cs3.takeWhile Char.isDigit
          let cs4 := cs3.dropWhile Char.isDigit
          if ed = [] ∨ cs4 ≠ [] then Option.none
          else if eneg then
            some (mkRat (sgn * digits) (10 ^ (fp.length + digitsToNat ed)))
          else some (mkRat (sgn * digits * 10 ^ digitsToNat ed) (10 ^ fp.length))
        else Option.none
  match cs1 with
  | '.' :: cs2 =>
      let fp := cs2.takeWhile Char.isDigit
      let cs3 := cs2.dropWhile Char.isDigit
      if ip = [] ∧ fp = [] then Option.none else mk fp cs3
  | _ => if ip = [] then Option.none else mk [] cs1

/-- Python `int(s)`: optional sign then digits only. -/
def pyInt (s : String) : Option ℤ :=
  let (neg, cs) := parseSign s.data
  let ds := cs.takeWhile Char.isDigit
  let rest := cs.dropWhile Char.isDigit
  if ds = [] ∨ rest ≠ [] then Option.none
  else some (if neg then -(digitsToNat ds : ℤ) else (digitsToNat ds : ℤ))

/-- Python `s.split()` with no argument: split on any whitespace,
discarding empty tokens. -/
def pySplitWs (s : String) : List String :=
  ((splitOnChar ' ' (s.data.map (fun c => if c.isWhitespace then ' ' else c))).filter
    (fun t => t ≠ [])).map String.mk

/-- Python `s.lower()` for the ASCII keys used here. -/
def toLowerStr (cs : List Char) : String :=
  String.mk (cs.map Char.toLower)

/-- `parse_key_params` (bench_lib/parser.py): extract `key=value` parameters
from a benchmark invocation name such as `BenchmarkName/KeySize=64/Keys=1024-8`,
stripping a trailing `-<digits>` GOMAXPROCS suffix, lower-casing keys and
parsing values as floats when possible. -/
def parse_key_params (name : String) : Row :=
  match splitOnChar '/' name.data with
  | [] => []
  | [_] => []
  | _ :: rest =>
    let params_part := joinWithChar '/' rest
    let dsegs := splitOnChar '-' params_part
    let params_part :=
      if 2 ≤ dsegs.length ∧ dsegs.getLastD [] ≠ [] ∧
          (dsegs.getLastD []).all Char.isDigit then
        joinWithChar '-' dsegs.dropLast
      else params_part
    (splitOnChar '/' params_part).foldl (fun row chunk =>
      match splitOnChar '=' chunk with
      | k :: v0 :: vrest =>
          let v := String.mk (joinWithChar '=' (v0 :: vrest))
          match pyFloat v with
          | some q => pyInsert (toLowerStr k) (Val.num q) row
          | Option.none => pyInsert (toLowerStr k) (Val.str v) row
      | _ => row) []

/-- Unit-token normalization for custom metrics:
`tok.replace("/", "_").replace(".", "")`. -/
def cleanUnit (s : String) : String :=
  String.mk ((s.data.map (fun c => if c = '/' then '_' else c)).filter
    (fun c => c ≠ '.'))

/-- One iteration of `parse_file`'s line loop: a line not starting with
`Benchmark`, or with fewer than four whitespace tokens, yields no row;
otherwise the standard fields, auto-extracted parameters, the repeat count,
and `(value, unit)` metric pairs are collected into a row. -/
def processLine (line : String) : Option Row :=
  if ¬ startsWithL "Benchmark".data line.data then Option.none
  else
    let parts := pySplitWs line
    if parts.length < 4 then Option.none
    else
      let full_name := parts.headD ""
      let row : Row := [("full_name", Val.str full_name),
                        ("benchmark",
                         Val.str (String.mk ((splitOnChar '/' full_name.data).headD [])))]
      let row := (parse_key_params full_name).foldl
        (fun r kv => pyInsert kv.1 kv.2 r) row
      let row := match pyInt (parts.getD 1 "") with
        | some n => pyInsert "samples_count" (Val.num n) row
        | Option.none => row
      let pairs := (parts.drop 1).zip (parts.drop 2)
      some (pairs.foldl (fun r pt =>
        match pyFloat pt.1 with
        | Option.none => r
        | some v =>
          if pt.2 = "ns/op" then pyInsert "ns_per_op" (Val.num v) r
          else if pt.2 = "B/op" then pyInsert "bytes_per_op" (Val.num v) r
          else if pt.2 = "allocs/op" then pyInsert "allocs_per_op" (Val.num v) r
          else match pyFloat pt.2 with
            | some _ => r
            | Option.none => pyInsert (cleanUnit pt.2) (Val.num v) r) row)

/-- First-occurrence deduplication, keeping elements whose value was not
seen before (the iteration order a Python `dict` induces on its keys). -/
def firstOccurAux {α : Type} [DecidableEq α] (seen : List α) : List α → List α
  | [] => []
  | a :: as =>
      if a ∈ seen then firstOccurAux seen as
      else a :: firstOccurAux (a :: seen) as

/-- Distinct elements of a list in first-occurrence order. -/
def firstOccur {α : Type} [DecidableEq α] (l : List α) : List α :=
  firstOccurAux [] l

/-- `parse_file` (bench_lib/parser.py): over a filesystem `fs` mapping paths
to file lines, a missing path yields no rows; an existing file yields one
row per parseable benchmark line, in file order. -/
def parse_file (fs : String → Option (List String)) (path : String) :
    List Row :=
  match fs path with
  | Option.none => []
  | some lines => lines.filterMap processLine

/-!
## Report flattening (locators/benchmarks/analyze.py)
-/

/-- A node of the hierarchical `MemReport` JSON payload: a component name,
its byte total, and child components. -/
inductive MemNode where
  | node (name : String) (total_bytes : ℤ) (children : List MemNode)

/-- The root's reported `total_bytes`. -/
def MemNode.total_bytes : MemNode → ℤ
  | .node _ tb _ => tb

/-- The flat mapping `flatten_report` produces: the five canonical buckets. -/
structure Buckets where
  hzFastTrie : ℤ
  leafBitVector : ℤ
  mmphTrie : ℤ
  mmphBuckets : ℤ
  other : ℤ
deriving DecidableEq

/-- `known_sum` in `flatten_report`: the sum of the non-Other buckets plus
the Other bucket. -/
def Buckets.sum (b : Buckets) : ℤ :=
  b.hzFastTrie + b.leafBitVector + b.mmphTrie + b.mmphBuckets + b.other

mutual

/-- The recursive `walk` of `flatten_report`: accumulate a node's
`total_bytes` into the bucket matching its name, stopping descent at the
black-box components `hzft`, `rsdic_bv`, `ApproxZFastTrie` and `buckets`;
`header` and `Top_Level_Header` contribute to Other and are walked through;
all other nodes only have their children walked. -/
def walk : MemNode → Buckets → Buckets
  | .node nm tb children, out =>
      if nm = "hzft" then { out with hzFastTrie := out.hzFastTrie + tb }
      else if nm = "rsdic_bv" then { out with leafBitVector := out.leafBitVector + tb }
      else if nm = "ApproxZFastTrie" then { out with mmphTrie := out.mmphTrie + tb }
      else if nm = "buckets" then { out with mmphBuckets := out.mmphBuckets + tb }
      else
        let out1 :=
          if nm = "header" ∨ nm = "Top_Level_Header" then
            { out with other := out.other + tb }
          else out
        walkList children out1

/-- `for child in node.get("children", []): walk(child)`. -/
def walkList : List MemNode → Buckets → Buckets
  | [], out => out
  | c :: cs, out => walkList cs (walk c out)

end

/-- `flatten_report` (locators/benchmarks/analyze.py): walk the tree, then
top up Other with the remainder when the attributed sum falls short of the
root's reported total. -/
def flatten_report (data : MemNode) : Buckets :=
  let out := walk data ⟨0, 0, 0, 0, 0⟩
  let known_sum := out.sum
  if known_sum < data.total_bytes then
    { out with other := out.other + (data.total_bytes - known_sum) }
  else out

/-- A tree on which the attributed sum exceeds the root's reported total:
the walk attributes 20 bytes to HZFastTrie while the root claims 10. -/
def overAttributedTree : MemNode :=
  .node "root" 10 [.node "hzft" 20 []]

/-!
## Run orchestrator (scripts/bench_lib/runner.py)
-/

/-- One external benchmark invocation: the lines the spawned process writes
to its captured-output file, and whether it exited zero. -/
structure Invocation where
  out : List String
  success : Bool
deriving DecidableEq

/-- `run_single_iteration`: `open(temp_out, "w")` creates the temporary
file before the subprocess starts, and the subprocess's stdout and stderr
are captured into it; on a non-zero exit the error is printed to stderr and
`False` returned, but the temporary file still exists with whatever the
process wrote.  The model returns (temp-file contents if the file exists,
success flag). -/
def run_single_iteration (inv : Invocation) : Option (List String) × Bool :=
  (some inv.out, inv.success)

/-- The merge loop of `run_benchmarks` for one module: concatenate, in
iteration order, the contents of those temporary files that exist. -/
def mergeModule (temps : List (Option (List String))) : List String :=
  temps.foldl (fun acc t =>
    match t with
    | some c => acc ++ c
    | Option.none => acc) []

/-- `run_benchmarks` restricted to one module: run every iteration, then
merge the temporary files in iteration order. -/
def run_benchmarks_module (invs : List Invocation) : List String :=
  mergeModule (invs.map (fun i => (run_single_iteration i).1))

/-- The merged output claim C2 describes: the concatenation, in iteration
order, of the outputs of the succeeding invocations only. -/
def succeedingOutputs (invs : List Invocation) : List String :=
  (invs.filter (fun i => i.success)).foldl (fun acc i => acc ++ i.out) []

/-!
## Success-probability model (mmph/relative_trie/study/analyze.py)
-/

/-- `checks` in `theory_query_false_positive`:
`max(1, ceil(log2(max(2, w_bits))))`. -/
def checks (w_bits : ℕ) : ℕ :=
  max 1 (Nat.clog 2 (max 2 w_bits))

/-- `theory_query_false_positive`: chance that any of `checks` independent
signature comparisons, each a false positive with probability `2^-s_bits`,
produces a false positive. -/
def theory_query_false_positive (w_bits s_bits : ℕ) : ℚ :=
  1 - (1 - (1 / 2 : ℚ) ^ s_bits) ^ checks w_bits

/-- `p_attempt_success` in `theory_build_success`: one construction attempt
succeeds only if all `n_keys` keys succeed independently. -/
def attempt_success (n_keys w_bits s_bits : ℕ) : ℚ :=
  (1 - theory_query_false_positive w_bits s_bits) ^ n_keys

/-- `theory_build_success`: the build retries with fresh seeds up to
`rebuild_attempts` independent attempts. -/
def theory_build_success (n_keys w_bits s_bits rebuild_attempts : ℕ) : ℚ :=
  1 - (1 - attempt_success n_keys w_bits s_bits) ^ rebuild_attempts

/-!
## Chart rendering (scripts/bench_lib/plotter.py)
-/

/-- A series mapping fed to the renderers: an insertion-ordered dict from
series name to a list of (x, y) points. -/
abbrev Series := List (String × List (ℚ × ℚ))

/-- The data points `draw_line_chart` draws for one series:
`pts = sorted(pts, key=lambda t: t[0])`, then one polyline vertex and one
circle per pair of the sorted list. -/
def draw_line_chart_circles (pts : List (ℚ × ℚ)) : List (ℚ × ℚ) :=
  List.insertionSort (fun a b : ℚ × ℚ => a.1 ≤ b.1) pts

/-- `points = {x: y for x, y in series[name]}` in
`draw_stacked_area_chart`: a dict built left to right, so a later pair with
the same x overwrites an earlier one. -/
def seriesDict (pts : List (ℚ × ℚ)) : List (ℚ × ℚ) :=
  pts.foldl (fun acc p => pyInsert p.1 p.2 acc) []

/-- `points.get(x, 0.0)`. -/
def dictGetD (d : List (ℚ × ℚ)) (x : ℚ) : ℚ :=
  (pyGet x d).getD 0

/-- `sorted({x for pts in series.values() for x, _ in pts})`: the common x
domain of all series. -/
def allX (series : Series) : List ℚ :=
  List.insertionSort (· ≤ ·)
    (firstOccur (series.flatMap (fun s => s.2.map Prod.fst)))

/-- Running sums: `stacked_y[x][i] = stacked_y[x][i-1] + y_val`. -/
def cumulative (l : List ℚ) : List ℚ :=
  (l.scanl (· + ·) 0).tail

/-- The column of cumulative heights at `x`, one entry per series. -/
def stackedCum (seriesVals : List (List (ℚ × ℚ))) (x : ℚ) : List ℚ :=
  cumulative (seriesVals.map (fun pts => dictGetD (seriesDict pts) x))

/-- The data-space vertices of the top boundary of stacked layer `i`: one
vertex per element of the common x domain, at the cumulative height. -/
def stackedLayerPoints (series : Series) (i : ℕ) : List (ℚ × ℚ) :=
  (allX series).map
    (fun x => (x, (stackedCum (series.map Prod.snd) x).getD i 0))

/-- Result of a renderer that did not raise: either an explicit skip (no
artifact) or a drawn artifact carrying its per-layer vertex positions. -/
inductive RenderOutcome where
  | skipped
  | drawn (layers : List (List (ℚ × ℚ)))
deriving DecidableEq

/-- `min(all_x)` over a nonempty list. -/
def listMinD (l : List ℚ) : ℚ := l.foldl min (l.headD 0)

/-- `max(...)` over a nonempty list. -/
def listMaxD (l : List ℚ) : ℚ := l.foldl max (l.headD 0)

/-- Monadic map over `Except`, failing at the first error (the order in
which a Python loop raises). -/
def exceptList {ε α β : Type} (f : α → Except ε β) :
    List α → Except ε (List β)
  | [] => Except.ok []
  | a :: as => do
      let b ← f a
      let bs ← exceptList f as
      pure (b :: bs)

/-- `x_pos` of `draw_stacked_area_chart`, with `log2` kept abstract and a
division by zero made an explicit error. -/
def x_pos_stacked (log2f : ℚ → ℚ) (all_x : List ℚ) (left pw : ℚ)
    (log_x : Bool) (x : ℚ) : Except String ℚ :=
  let x_min_val := listMinD all_x
  let x_max_val := listMaxD all_x
  if x_max_val = x_min_val then Except.ok (left + pw / 2)
  else if log_x then
    let d := log2f (max 1 x_max_val) - log2f (max 1 x_min_val)
    if d = 0 then Except.error "ZeroDivisionError"
    else Except.ok (left + (log2f (max 1 x) - log2f (max 1 x_min_val)) / d * pw)
  else Except.ok (left + (x - x_min_val) / (x_max_val - x_min_val) * pw)

/-- `y_pos` of `draw_stacked_area_chart`: `t = y / y_max` raises
`ZeroDivisionError` when `y_max` is zero (there is no guard, unlike the
line chart's `max(1.0, ...)`). -/
def y_pos_stacked (top ph y_max y : ℚ) : Except String ℚ :=
  if y_max = 0 then Except.error "ZeroDivisionError"
  else Except.ok (top + ph - y / y_max * ph)

/-- `draw_stacked_area_chart` (bench_lib/plotter.py), modelled up to the
geometry it emits: skip when the x domain is empty, else lay the y grid,
the x grid, and the per-layer boundary vertices, propagating the first
raised error. -/
def draw_stacked_area_chart (log2f : ℚ → ℚ) (series : Series)
    (log_x : Bool) : Except String RenderOutcome :=
  let left : ℚ := 90
  let top : ℚ := 55
  let pw : ℚ := 960 - 90 - 180
  let ph : ℚ := 540 - 55 - 75
  let all_x := allX series
  if all_x = [] then Except.ok RenderOutcome.skipped
  else
    let seriesVals := series.map Prod.snd
    let max_y := listMaxD (all_x.map
      (fun x => (stackedCum seriesVals x).getLastD 0))
    let y_max := max_y * (11 / 10)
    do
      _ ← exceptList
        (fun i => y_pos_stacked top ph y_max (y_max * (i : ℚ) / 5))
        (List.range 6)
      _ ← exceptList (x_pos_stacked log2f all_x left pw log_x) all_x
      let layers ← exceptList (fun i =>
        exceptList (fun x => do
          let px ← x_pos_stacked log2f all_x left pw log_x x
          let py ← y_pos_stacked top ph y_max
            ((stackedCum seriesVals x).getD i 0)
          pure (px, py)) all_x)
        (List.range series.length)
      pure (RenderOutcome.drawn layers)

/-- A series with two points sharing the x value 1. -/
def dupXSeries : Series := [("a", [(1, 2), (1, 3)])]

/-!
## Aggregation engine (scripts/bench_lib/parser.py)
-/

/-- `statistics.median`: sort, take the middle element (odd length) or the
mean of the two middle elements (even length). -/
def median (vals : List ℚ) : ℚ :=
  let s := List.insertionSort (· ≤ ·) vals
  let n := s.length
  if n % 2 = 1 then s.getD (n / 2) 0
  else (s.getD (n / 2 - 1) 0 + s.getD (n / 2) 0) / 2

/-- The grouping signature of a row: `tuple(r.get(k) for k in group_keys)`. -/
def sigOf (group_keys : List String) (r : Row) : List (Option Val) :=
  group_keys.map (fun k => pyGet k r)

/-- `grouped[sig].append(r)` on a `defaultdict(list)` held as an
insertion-ordered association list. -/
def addToGroup (s : List (Option Val)) (r : Row) :
    List (List (Option Val) × List Row) → List (List (Option Val) × List Row)
  | [] => [(s, [r])]
  | (s', g) :: rest =>
      if s' = s then (s', g ++ [r]) :: rest
      else (s', g) :: addToGroup s r rest

/-- The grouping loop of `aggregate`. -/
def grouped (group_keys : List String) (rows : List Row) :
    List (List (Option Val) × List Row) :=
  rows.foldl (fun acc r => addToGroup (sigOf group_keys r) r acc) []

/-- `[r[k] for r in group if k in r and isinstance(r[k], (int, float))]`. -/
def numericVals (k : String) (group : List Row) : List ℚ :=
  group.filterMap (fun r =>
    match pyGet k r with
    | some (Val.num q) => some q
    | _ => Option.none)

/-- The keys `aggregate` skips in its median loop:
`k in group_keys or k in ["full_name", "samples", "samples_count"]`. -/
def skipKey (group_keys : List String) (k : String) : Prop :=
  k ∈ group_keys ∨ k = "full_name" ∨ k = "samples" ∨ k = "samples_count"

instance (group_keys : List String) (k : String) :
    Decidable (skipKey group_keys k) := by
  unfold skipKey
  infer_instance

/-- One summary row of `aggregate`: the group-key fields, the sample count,
then the median of every numeric field present in the group (the union of
the group's keys is visited in first-occurrence order, standing in for
Python's unordered set iteration; claims compare rows by lookup). -/
def mkAggRow (group_keys : List String) (g : List (Option Val))
    (group : List Row) : Row :=
  let res := (group_keys.zip g).foldl
    (fun res kv => pyInsert kv.1 (kv.2.getD Val.pynone) res) []
  let res := pyInsert "samples" (Val.num group.length) res
  let metricKeys := firstOccur (group.flatMap (fun r => r.map Prod.fst))
  metricKeys.foldl (fun res k =>
    if skipKey group_keys k then res
    else
      let vals := numericVals k group
      if vals = [] then res
      else pyInsert k (Val.num (median vals)) res) res

/-- `aggregate` (bench_lib/parser.py): group rows by their group-key
signature, then emit one summary row per group, in group insertion order. -/
def aggregate (rows : List Row) (group_keys : List String) : List Row :=
  (grouped group_keys rows).map (fun e => mkAggRow group_keys e.1 e.2)

/-- The members of a group: the rows whose signature is `g`, in row order. -/
def groupRows (gk : List String) (g : List (Option Val)) (rows : List Row) :
    List Row :=
  rows.filter (fun r => sigOf gk r = g)

/-- The group signatures in first-appearance order. -/
def groupSigs (gk : List String) (rows : List Row) : List (List (Option Val)) :=
  firstOccur (rows.map (sigOf gk))

/-- A summary row compared as the Python dict it stands for: by lookup. -/
def rowContent (r : Row) : String → Option Val :=
  fun k => pyGet k r

/-- Python's `isinstance(v, str)` on our values. -/
def Val.isStr : Val → Bool
  | .str _ => true
  | _ => false

/-- Two records in one group. -/
def rowA : Row := [("benchmark", Val.str "B"), ("ns_per_op", Val.num 100)]

/-- A second record of the same group. -/
def rowB : Row := [("benchmark", Val.str "B"), ("ns_per_op", Val.num 300)]

/-- A record whose `mode` field is a string in a numeric-metric row. -/
def rowS : Row :=
  [("benchmark", Val.str "B"), ("mode", Val.str "fast"),
   ("ns_per_op", Val.num 5)]

/-!
## Theorems: claims and supporting lemmas
-/

/-- Claim C3: parsing the single line
`BenchmarkBuild/KeySize=64/Keys=1024-8 100 234 ns/op 512 B/op 3 allocs/op`
yields exactly one record whose benchmark name is `BenchmarkBuild`, whose
parameters map `keysize` to 64 and `keys` to 1024 (key lower-cased, the
trailing `-8` concurrency suffix stripped), and whose metrics map
`ns_per_op` to 234, `bytes_per_op` to 512 and `allocs_per_op` to 3. -/
theorem parse_file_single_line_example :
    (parse_file (fun _ => some
      ["BenchmarkBuild/KeySize=64/Keys=1024-8 100 234 ns/op 512 B/op 3 allocs/op"])
      "bench.log").length = 1 ∧
    (parse_file (fun _ => some
      ["BenchmarkBuild/KeySize=64/Keys=1024-8 100 234 ns/op 512 B/op 3 allocs/op"])
      "bench.log").headD [] =
      [("full_name", Val.str "BenchmarkBuild/KeySize=64/Keys=1024-8"),
       ("benchmark", Val.str "BenchmarkBuild"),
       ("keysize", Val.num 64),
       ("keys", Val.num 1024),
       ("samples_count", Val.num 100),
       ("ns_per_op", Val.num 234),
       ("bytes_per_op", Val.num 512),
       ("allocs_per_op", Val.num 3)] := by decide

/-- Claim C8: for every path that the filesystem does not map to a file,
`parse_file` returns the empty list of records (and, being total, raises
no error). -/
theorem parse_file_missing_path (fs : String → Option (List String))
    (path : String) (h : fs path = Option.none) :
    parse_file fs path = [] := by
  simp [parse_file, h]

/-- Witness for `parse_file_missing_path` at a concrete filesystem. -/
theorem parse_file_missing_path_witness :
    parse_file (fun _ => Option.none) "raw/rloc.txt" = [] :=
  parse_file_missing_path (fun _ => Option.none) "raw/rloc.txt" rfl

/-- Claim C10: a line that begins with the `Benchmark` marker but splits
into fewer than four whitespace tokens produces no record: `processLine`
skips it, and a file containing it parses exactly as the file without it. -/
theorem short_marker_line_skipped (pre post : List String) (line : String)
    (h1 : startsWithL "Benchmark".data line.data = true)
    (h2 : (pySplitWs line).length < 4) :
    processLine line = Option.none ∧
    parse_file (fun _ => some (pre ++ line :: post)) "bench.log" =
      parse_file (fun _ => some (pre ++ post)) "bench.log" := by
  have hnone : processLine line = Option.none := by
    simp [processLine, h1]
    omega
  refine ⟨hnone, ?_⟩
  simp [parse_file, List.filterMap_append, hnone]

/-- Witness for `short_marker_line_skipped`: a marker line carrying only an
invocation name and a repeat count yields nothing. -/
theorem short_marker_line_skipped_witness :
    processLine "BenchmarkBuild/Keys=1024-8 100" = Option.none ∧
    parse_file (fun _ => some
      ["BenchmarkFirst/Keys=2-8 10 5 ns/op", "BenchmarkBuild/Keys=1024-8 100"])
      "bench.log" =
    parse_file (fun _ => some ["BenchmarkFirst/Keys=2-8 10 5 ns/op"]) "bench.log" :=
  short_marker_line_skipped ["BenchmarkFirst/Keys=2-8 10 5 ns/op"] []
    "BenchmarkBuild/Keys=1024-8 100" (by decide) (by decide)

/-- Counterexample for claim C1: the flattened buckets of
`overAttributedTree` sum to 20, not to the root's reported total 10, because
`flatten_report` only adjusts Other when the attributed sum is too small. -/
theorem flatten_report_not_always_conservative :
    (flatten_report overAttributedTree).sum ≠ overAttributedTree.total_bytes := by
  have h : flatten_report overAttributedTree = ⟨20, 0, 0, 0, 0⟩ := by
    simp [flatten_report, overAttributedTree, walk, walkList, Buckets.sum,
      MemNode.total_bytes]
  rw [h]
  simp [Buckets.sum, overAttributedTree, MemNode.total_bytes]

/-- Claim C1, amended: whenever the byte total the walk attributes does not
exceed the root's reported total — as in every well-formed report, whose
component bytes are parts of the root total — the canonical buckets of
`flatten_report` sum exactly to the root's reported `total_bytes`. -/
theorem flatten_report_conservative (data : MemNode)
    (h : (walk data ⟨0, 0, 0, 0, 0⟩).sum ≤ data.total_bytes) :
    (flatten_report data).sum = data.total_bytes := by
  have hdef : flatten_report data =
      if (walk data ⟨0, 0, 0, 0, 0⟩).sum < data.total_bytes then
        { walk data ⟨0, 0, 0, 0, 0⟩ with
          other := (walk data ⟨0, 0, 0, 0, 0⟩).other +
            (data.total_bytes - (walk data ⟨0, 0, 0, 0, 0⟩).sum) }
      else walk data ⟨0, 0, 0, 0, 0⟩ := rfl
  rw [hdef]
  by_cases hlt : (walk data ⟨0, 0, 0, 0, 0⟩).sum < data.total_bytes
  · rw [if_pos hlt]
    simp only [Buckets.sum] at h ⊢
    omega
  · rw [if_neg hlt]
    simp only [Buckets.sum] at h hlt ⊢
    omega

/-- Witness for `flatten_report_conservative` on a well-formed report. -/
theorem flatten_report_conservative_witness :
    (walk (.node "root" 100 [.node "hzft" 40 [], .node "header" 10 []])
        ⟨0, 0, 0, 0, 0⟩).sum ≤
      (MemNode.node "root" 100 [.node "hzft" 40 [], .node "header" 10 []]).total_bytes ∧
    (flatten_report (.node "root" 100 [.node "hzft" 40 [], .node "header" 10 []])).sum =
      (MemNode.node "root" 100 [.node "hzft" 40 [], .node "header" 10 []]).total_bytes := by
  have h : (walk (.node "root" 100 [.node "hzft" 40 [], .node "header" 10 []])
      ⟨0, 0, 0, 0, 0⟩).sum ≤
      (MemNode.node "root" 100 [.node "hzft" 40 [], .node "header" 10 []]).total_bytes := by
    simp [walk, walkList, Buckets.sum, MemNode.total_bytes]
  exact ⟨h, flatten_report_conservative _ h⟩

/-- Claim C2 fails on the code: with one succeeding and one failing
iteration, the merged module log contains the failing invocation's captured
output as well, because the temporary file was created before the
subprocess ran and the merge includes every temporary file that exists;
the claim's merge would contain only the succeeding iteration's output. -/
theorem run_benchmarks_merges_failed_output :
    run_benchmarks_module
      [⟨["BenchmarkBuild 10 5 ns/op"], true⟩, ⟨["half-written li"], false⟩] =
      ["BenchmarkBuild 10 5 ns/op", "half-written li"] ∧
    succeedingOutputs
      [⟨["BenchmarkBuild 10 5 ns/op"], true⟩, ⟨["half-written li"], false⟩] =
      ["BenchmarkBuild 10 5 ns/op"] ∧
    run_benchmarks_module
      [⟨["BenchmarkBuild 10 5 ns/op"], true⟩, ⟨["half-written li"], false⟩] ≠
    succeedingOutputs
      [⟨["BenchmarkBuild 10 5 ns/op"], true⟩, ⟨["half-written li"], false⟩] := by
  refine ⟨by decide, by decide, by decide⟩

/-- `0 ≤ attempt_success ≤ 1`. -/
theorem attempt_success_mem_unit (n_keys w_bits s_bits : ℕ) :
    0 ≤ attempt_success n_keys w_bits s_bits ∧
      attempt_success n_keys w_bits s_bits ≤ 1 := by
  have hhalf0 : (0 : ℚ) ≤ (1 / 2 : ℚ) ^ s_bits := by positivity
  have hhalf1 : (1 / 2 : ℚ) ^ s_bits ≤ 1 :=
    pow_le_one₀ (by norm_num) (by norm_num)
  have hbase0 : (0 : ℚ) ≤ 1 - (1 / 2 : ℚ) ^ s_bits := by linarith
  have hbase1 : 1 - (1 / 2 : ℚ) ^ s_bits ≤ 1 := by linarith
  have hq0 : (0 : ℚ) ≤ (1 - (1 / 2 : ℚ) ^ s_bits) ^ checks w_bits :=
    pow_nonneg hbase0 _
  have hq1 : (1 - (1 / 2 : ℚ) ^ s_bits) ^ checks w_bits ≤ 1 :=
    pow_le_one₀ hbase0 hbase1
  have hkey : 1 - theory_query_false_positive w_bits s_bits =
      (1 - (1 / 2 : ℚ) ^ s_bits) ^ checks w_bits := by
    unfold theory_query_false_positive
    ring
  unfold attempt_success
  rw [hkey]
  exact ⟨pow_nonneg hq0 _, pow_le_one₀ hq0 hq1⟩

/-- Claim C4: for all parameters (with `w_bits ≥ 1` as the claim ranges),
`theory_build_success` is non-decreasing in the retry budget, and converges
to 1 as the retry budget grows whenever a single attempt's success
probability is strictly positive. -/
theorem theory_build_success_monotone_and_tendsto_one :
    (∀ (n_keys w_bits s_bits r1 r2 : ℕ), 1 ≤ w_bits → 1 ≤ r1 → r1 ≤ r2 →
      theory_build_success n_keys w_bits s_bits r1 ≤
        theory_build_success n_keys w_bits s_bits r2) ∧
    (∀ (n_keys w_bits s_bits : ℕ), 1 ≤ w_bits →
      0 < attempt_success n_keys w_bits s_bits →
      Filter.Tendsto (fun r => theory_build_success n_keys w_bits s_bits r)
        Filter.atTop (nhds 1)) := by
  constructor
  · intro n w s r1 r2 _ _ hr
    obtain ⟨ha0, ha1⟩ := attempt_success_mem_unit n w s
    have h0 : (0 : ℚ) ≤ 1 - attempt_success n w s := by linarith
    have h1 : 1 - attempt_success n w s ≤ 1 := by linarith
    have := pow_le_pow_of_le_one h0 h1 hr
    simp only [theory_build_success]
    linarith
  · intro n w s _ hpos
    obtain ⟨ha0, ha1⟩ := attempt_success_mem_unit n w s
    have h0 : (0 : ℚ) ≤ 1 - attempt_success n w s := by linarith
    have h1 : 1 - attempt_success n w s < 1 := by linarith
    have hgeo :
        Filter.Tendsto (fun r : ℕ => (1 - attempt_success n w s) ^ r)
          Filter.atTop (nhds 0) :=
      tendsto_pow_atTop_nhds_zero_of_lt_one h0 h1
    have hsub := Filter.Tendsto.const_sub (1 : ℚ) hgeo
    simpa [theory_build_success] using hsub

/-- Witness for `theory_build_success_monotone_and_tendsto_one` at
`n_keys = 4`, `w_bits = 64`, `s_bits = 8`, retry budgets 1 and 2. -/
theorem theory_build_success_witness :
    theory_build_success 4 64 8 1 ≤ theory_build_success 4 64 8 2 ∧
    Filter.Tendsto (fun r => theory_build_success 4 64 8 r)
      Filter.atTop (nhds 1) := by
  have hbase : (0 : ℚ) < 1 - (1 / 2 : ℚ) ^ (8 : ℕ) := by norm_num
  have hq : (0 : ℚ) < 1 - theory_query_false_positive 64 8 := by
    have := pow_pos hbase (checks 64)
    simp only [theory_query_false_positive]
    linarith
  have hpos : 0 < attempt_success 4 64 8 := pow_pos hq 4
  exact ⟨theory_build_success_monotone_and_tendsto_one.1 4 64 8 1 2
      (by decide) (by decide) (by decide),
    theory_build_success_monotone_and_tendsto_one.2 4 64 8 (by decide) hpos⟩

/-- Looking a key up after a Python dict assignment. -/
theorem pyGet_pyInsert {κ β : Type} [DecidableEq κ] (k k' : κ) (v : β)
    (d : List (κ × β)) :
    pyGet k' (pyInsert k v d) = if k = k' then some v else pyGet k' d := by
  induction d with
  | nil => simp [pyInsert, pyGet]
  | cons hd t ih =>
      obtain ⟨k0, v0⟩ := hd
      by_cases hk : k0 = k
      · subst hk
        by_cases hk' : k0 = k'
        · subst hk'
          simp [pyInsert, pyGet]
        · simp [pyInsert, pyGet, hk']
      · by_cases hk' : k0 = k'
        · subst hk'
          have hkne : ¬ (k = k0) := fun h => hk h.symm
          simp [pyInsert, hk, pyGet, hkne]
        · simp [pyInsert, hk, pyGet, hk', ih]

/-- The dict comprehension processes a trailing pair last. -/
theorem seriesDict_concat (pts : List (ℚ × ℚ)) (p : ℚ × ℚ) :
    seriesDict (pts ++ [p]) = pyInsert p.1 p.2 (seriesDict pts) := by
  simp [seriesDict, List.foldl_append]

/-- The stacked-area dict lookup returns the y of the last input pair with
the given x (or 0 when no pair has it): duplicates are merged, last wins. -/
theorem dictGetD_seriesDict_last_wins (pts : List (ℚ × ℚ)) (x : ℚ) :
    dictGetD (seriesDict pts) x =
      (((pts.filter (fun p => p.1 = x)).getLast?).map Prod.snd).getD 0 := by
  induction pts using List.reverseRecOn with
  | nil => simp [seriesDict, dictGetD, pyGet]
  | append_singleton l p ih =>
      rw [seriesDict_concat]
      by_cases hx : p.1 = x
      · simp [dictGetD, pyGet_pyInsert, hx, List.filter_append,
          List.getLast?_concat]
      · simp only [dictGetD, pyGet_pyInsert, hx, if_neg, List.filter_append]
        simpa [hx] using ih

/-- Counterexample for claim C6: in the stacked-area chart, the two input
pairs (1, 2) and (1, 3) of `dupXSeries` produce a single plotted boundary
vertex — at the last pair's y — not one plotted coordinate per input pair. -/
theorem stacked_area_merges_duplicate_x :
    stackedLayerPoints dupXSeries 0 = [(1, 3)] ∧
    (stackedLayerPoints dupXSeries 0).length ≠
      ((dupXSeries.headD ("", [])).2).length := by
  have h : stackedLayerPoints dupXSeries 0 = [(1, 3)] := by
    norm_num [stackedLayerPoints, dupXSeries, allX, firstOccur, firstOccurAux,
      List.insertionSort, List.orderedInsert, stackedCum, cumulative,
      seriesDict, dictGetD, pyInsert, pyGet]
  refine ⟨h, ?_⟩
  rw [h]
  decide

/-- Claim C6, amended: the line chart plots every input pair of a series as
its own vertex and circle — duplicate x values included — while the
stacked-area chart first converts each series to a dict keyed by x, so
pairs sharing an x are merged and the last pair's y is the one consumed. -/
theorem line_chart_separate_points_stacked_last_wins :
    (∀ pts : List (ℚ × ℚ), (draw_line_chart_circles pts).Perm pts) ∧
    (∀ (pts : List (ℚ × ℚ)) (x : ℚ),
      dictGetD (seriesDict pts) x =
        (((pts.filter (fun p => p.1 = x)).getLast?).map Prod.snd).getD 0) :=
  ⟨fun pts => List.perm_insertionSort _ pts,
   fun pts x => dictGetD_seriesDict_last_wins pts x⟩

/-- Claim C7 fails on the code: a single-point series at x = 1 with height
0 — a degenerate domain the claim says must not crash — makes every stacked
column sum to 0, so `max_y = 0`, `y_max = 0`, and the first `y_pos` call of
the y-grid loop raises ZeroDivisionError (for any model of `log2`). -/
theorem stacked_area_zero_height_division_error (log2f : ℚ → ℚ) :
    draw_stacked_area_chart log2f [("a", [(1, 0)])] false =
      Except.error "ZeroDivisionError" := by
  norm_num [draw_stacked_area_chart, allX, firstOccur, firstOccurAux,
    List.insertionSort, List.orderedInsert, stackedCum, cumulative,
    seriesDict, dictGetD, pyInsert, pyGet, listMaxD, y_pos_stacked,
    exceptList, List.range_succ, Bind.bind, Except.bind]

theorem mem_firstOccurAux {α : Type} [DecidableEq α] (seen l : List α) (x : α) :
    x ∈ firstOccurAux seen l ↔ x ∈ l ∧ x ∉ seen := by
  induction l generalizing seen with
  | nil => simp [firstOccurAux]
  | cons a as ih =>
      by_cases ha : a ∈ seen
      · simp only [firstOccurAux, if_pos ha, ih, List.mem_cons]
        constructor
        · rintro ⟨hx, hns⟩
          exact ⟨Or.inr hx, hns⟩
        · rintro ⟨hx | hx, hns⟩
          · exact absurd (hx ▸ ha) hns
          · exact ⟨hx, hns⟩
      · simp only [firstOccurAux, if_neg ha, List.mem_cons, ih]
        constructor
        · rintro (rfl | ⟨hx, hns⟩)
          · exact ⟨Or.inl rfl, ha⟩
          · refine ⟨Or.inr hx, fun hc => hns (Or.inr hc)⟩
        · rintro ⟨rfl | hx, hns⟩
          · exact Or.inl rfl
          · by_cases hxa : x = a
            · exact Or.inl hxa
            · refine Or.inr ⟨hx, fun hc => ?_⟩
              rcases hc with h | h
              · exact hxa h
              · exact hns h

theorem nodup_firstOccurAux {α : Type} [DecidableEq α] (seen l : List α) :
    (firstOccurAux seen l).Nodup := by
  induction l generalizing seen with
  | nil => simp [firstOccurAux]
  | cons a as ih =>
      by_cases ha : a ∈ seen
      · simpa [firstOccurAux, ha] using ih seen
      · simp only [firstOccurAux, if_neg ha, List.nodup_cons]
        refine ⟨fun hmem => ?_, ih _⟩
        rw [mem_firstOccurAux] at hmem
        exact hmem.2 (List.mem_cons_self a seen)

theorem mem_firstOccur {α : Type} [DecidableEq α] (l : List α) (x : α) :
    x ∈ firstOccur l ↔ x ∈ l := by
  simp [firstOccur, mem_firstOccurAux]

theorem nodup_firstOccur {α : Type} [DecidableEq α] (l : List α) :
    (firstOccur l).Nodup :=
  nodup_firstOccurAux [] l

theorem perm_firstOccur {α : Type} [DecidableEq α] {l₁ l₂ : List α}
    (h : l₁.Perm l₂) : (firstOccur l₁).Perm (firstOccur l₂) := by
  rw [List.perm_ext_iff_of_nodup (nodup_firstOccur l₁) (nodup_firstOccur l₂)]
  intro a
  rw [mem_firstOccur, mem_firstOccur]
  exact h.mem_iff

theorem firstOccurAux_concat {α : Type} [DecidableEq α] (seen l : List α)
    (a : α) :
    firstOccurAux seen (l ++ [a]) =
      firstOccurAux seen l ++ (if a ∈ seen ∨ a ∈ l then [] else [a]) := by
  induction l generalizing seen with
  | nil => by_cases ha : a ∈ seen <;> simp [firstOccurAux, ha]
  | cons b bs ih =>
      rw [List.cons_append]
      by_cases hb : b ∈ seen
      · have h1 : firstOccurAux seen (b :: (bs ++ [a])) =
            firstOccurAux seen (bs ++ [a]) := by
          simp [firstOccurAux, hb]
        have h2 : firstOccurAux seen (b :: bs) = firstOccurAux seen bs := by
          simp [firstOccurAux, hb]
        rw [h1, h2, ih seen]
        congr 1
        refine if_congr ?_ rfl rfl
        constructor
        · rintro (h | h)
          · exact Or.inl h
          · exact Or.inr (List.mem_cons_of_mem b h)
        · rintro (h | h)
          · exact Or.inl h
          · rcases List.mem_cons.mp h with rfl | h
            · exact Or.inl hb
            · exact Or.inr h
      · have h1 : firstOccurAux seen (b :: (bs ++ [a])) =
            b :: firstOccurAux (b :: seen) (bs ++ [a]) := by
          simp [firstOccurAux, hb]
        have h2 : firstOccurAux seen (b :: bs) =
            b :: firstOccurAux (b :: seen) bs := by
          simp [firstOccurAux, hb]
        rw [h1, h2, ih (b :: seen), List.cons_append]
        congr 2
        refine if_congr ?_ rfl rfl
        constructor
        · rintro (h | h)
          · rcases List.mem_cons.mp h with rfl | h
            · exact Or.inr (List.mem_cons_self a bs)
            · exact Or.inl h
          · exact Or.inr (List.mem_cons_of_mem b h)
        · rintro (h | h)
          · exact Or.inl (List.mem_cons_of_mem b h)
          · rcases List.mem_cons.mp h with rfl | h
            · exact Or.inl (List.mem_cons_self a seen)
            · exact Or.inr h

theorem firstOccur_concat {α : Type} [DecidableEq α] (l : List α) (a : α) :
    firstOccur (l ++ [a]) =
      firstOccur l ++ (if a ∈ l then [] else [a]) := by
  simp [firstOccur, firstOccurAux_concat]

theorem addToGroup_of_not_mem (s : List (Option Val)) (r : Row)
    (acc : List (List (Option Val) × List Row))
    (h : ∀ e ∈ acc, e.1 ≠ s) :
    addToGroup s r acc = acc ++ [(s, [r])] := by
  induction acc with
  | nil => simp [addToGroup]
  | cons e rest ih =>
      obtain ⟨s', g⟩ := e
      have hne : s' ≠ s := h (s', g) (List.mem_cons_self _ _)
      simp only [addToGroup, if_neg hne, List.cons_append, List.cons.injEq,
        true_and]
      exact ih (fun e he => h e (List.mem_cons_of_mem _ he))

theorem addToGroup_map (s : List (Option Val)) (r : Row)
    (gl : List (List (Option Val))) (F : List (Option Val) → List Row)
    (hnd : gl.Nodup) (hs : s ∈ gl) :
    addToGroup s r (gl.map (fun g => (g, F g))) =
      gl.map (fun g => (g, F g ++ if g = s then [r] else [])) := by
  induction gl with
  | nil => cases hs
  | cons g gs ih =>
      rw [List.nodup_cons] at hnd
      by_cases hg : g = s
      · subst hg
        simp only [List.map_cons, addToGroup, if_pos rfl, if_pos]
        congr 1
        refine (List.map_congr_left ?_).symm
        intro g' hg'
        have : g' ≠ g := fun h => hnd.1 (h ▸ hg')
        simp [this]
      · rcases List.mem_cons.mp hs with rfl | hs'
        · exact absurd rfl hg
        · simp only [List.map_cons, addToGroup, if_neg hg, List.append_nil,
            List.cons.injEq, true_and]
          exact ih hnd.2 hs'

theorem groupRows_concat (gk : List String) (g : List (Option Val))
    (rows : List Row) (r : Row) :
    groupRows gk g (rows ++ [r]) =
      groupRows gk g rows ++ if sigOf gk r = g then [r] else [] := by
  simp only [groupRows, List.filter_append]
  congr 1
  by_cases h : sigOf gk r = g <;> simp [h]

theorem groupRows_eq_nil (gk : List String) (g : List (Option Val))
    (rows : List Row) (h : g ∉ rows.map (sigOf gk)) :
    groupRows gk g rows = [] := by
  rw [groupRows, List.filter_eq_nil_iff]
  intro r hr
  simp only [decide_eq_true_eq]
  intro hsig
  exact h (hsig ▸ List.mem_map_of_mem (sigOf gk) hr)

theorem grouped_eq (gk : List String) (rows : List Row) :
    grouped gk rows =
      (groupSigs gk rows).map (fun g => (g, groupRows gk g rows)) := by
  induction rows using List.reverseRecOn with
  | nil => simp [grouped, groupSigs, groupRows, firstOccur, firstOccurAux]
  | append_singleton l r ih =>
      have hfold : grouped gk (l ++ [r]) =
          addToGroup (sigOf gk r) r (grouped gk l) := by
        simp [grouped, List.foldl_append]
      rw [hfold, ih]
      have hsigs : groupSigs gk (l ++ [r]) =
          groupSigs gk l ++
            (if sigOf gk r ∈ l.map (sigOf gk) then [] else [sigOf gk r]) := by
        simp only [groupSigs, List.map_append, List.map_cons, List.map_nil,
          firstOccur_concat]
        congr 1
        by_cases hm : sigOf gk r ∈ List.map (sigOf gk) l <;> simp [hm]
      by_cases hs : sigOf gk r ∈ l.map (sigOf gk)
      · rw [addToGroup_map (sigOf gk r) r (groupSigs gk l)
          (fun g => groupRows gk g l) (nodup_firstOccur _)
          ((mem_firstOccur _ _).mpr hs)]
        rw [hsigs, if_pos hs, List.append_nil]
        refine List.map_congr_left ?_
        intro g hg
        rw [groupRows_concat]
        by_cases hgr : g = sigOf gk r
        · simp [hgr]
        · have : sigOf gk r ≠ g := fun h => hgr h.symm
          simp [hgr, this]
      · rw [addToGroup_of_not_mem _ _ _ (by
          intro e he
          rcases List.mem_map.mp he with ⟨g, hg, rfl⟩
          intro hc
          exact hs (hc ▸ (mem_firstOccur _ _).mp hg))]
        rw [hsigs, if_neg hs, List.map_append]
        congr 1
        · refine List.map_congr_left ?_
          intro g hg
          rw [groupRows_concat]
          have : sigOf gk r ≠ g := by
            intro hc
            exact hs (hc ▸ (mem_firstOccur _ _).mp hg)
          simp [this]
        · simp only [List.map_cons, List.map_nil, List.cons.injEq, and_true]
          rw [groupRows_concat, groupRows_eq_nil gk _ l hs]
          simp

theorem aggregate_eq (rows : List Row) (gk : List String) :
    aggregate rows gk =
      (groupSigs gk rows).map (fun g => mkAggRow gk g (groupRows gk g rows)) := by
  rw [aggregate, grouped_eq, List.map_map]
  rfl

theorem median_perm {l l' : List ℚ} (h : l.Perm l') : median l = median l' := by
  have hs : List.insertionSort (· ≤ ·) l = List.insertionSort (· ≤ ·) l' :=
    List.eq_of_perm_of_sorted
      ((List.perm_insertionSort _ l).trans
        (h.trans (List.perm_insertionSort _ l').symm))
      (List.sorted_insertionSort _ l) (List.sorted_insertionSort _ l')
  simp only [median, hs]

theorem median_singleton (q : ℚ) : median [q] = q := by
  simp [median, List.insertionSort, List.orderedInsert]

theorem pyGet_some_mem_fst {κ β : Type} [DecidableEq κ] {k : κ}
    {d : List (κ × β)} {v : β} (h : pyGet k d = some v) :
    k ∈ d.map Prod.fst := by
  induction d with
  | nil => simp [pyGet] at h
  | cons hd t ih =>
      obtain ⟨k0, v0⟩ := hd
      by_cases hk : k0 = k
      · simp [hk]
      · rw [pyGet, if_neg hk] at h
        exact List.mem_cons_of_mem _ (ih h)

/-- Lookup through the median loop of `aggregate`: a key is bound to the
median of its numeric values exactly when it occurs among the visited keys,
is not skipped, and has at least one numeric value; otherwise the
accumulator's binding shows through. -/
theorem pyGet_median_foldl (gk : List String) (group : List Row)
    (keys : List String) (res : Row) (k : String) :
    pyGet k (keys.foldl (fun res k' =>
      if skipKey gk k' then res
      else
        let vals := numericVals k' group
        if vals = [] then res
        else pyInsert k' (Val.num (median vals)) res) res) =
    if k ∈ keys ∧ ¬ skipKey gk k ∧ numericVals k group ≠ [] then
      some (Val.num (median (numericVals k group)))
    else pyGet k res := by
  induction keys generalizing res with
  | nil => simp
  | cons k' ks ih =>
      rw [List.foldl_cons, ih]
      by_cases h1 : k ∈ ks ∧ ¬ skipKey gk k ∧ numericVals k group ≠ []
      · rw [if_pos h1, if_pos ⟨List.mem_cons_of_mem k' h1.1, h1.2⟩]
      · rw [if_neg h1]
        by_cases hkk : k' = k
        · subst hkk
          by_cases hskip : skipKey gk k'
          · have hstep : (if skipKey gk k' then res
                else
                  let vals := numericVals k' group
                  if vals = [] then res
                  else pyInsert k' (Val.num (median vals)) res) = res := by
              simp [hskip]
            rw [hstep, if_neg (by
              rintro ⟨-, hns, -⟩
              exact hns hskip)]
          · by_cases hvals : numericVals k' group = []
            · have hstep : (if skipKey gk k' then res
                  else
                    let vals := numericVals k' group
                    if vals = [] then res
                    else pyInsert k' (Val.num (median vals)) res) = res := by
                simp [hskip, hvals]
              rw [hstep, if_neg (by
                rintro ⟨-, -, hne⟩
                exact hne hvals)]
            · have hstep : (if skipKey gk k' then res
                  else
                    let vals := numericVals k' group
                    if vals = [] then res
                    else pyInsert k' (Val.num (median vals)) res) =
                  pyInsert k' (Val.num (median (numericVals k' group))) res := by
                simp [hskip, hvals]
              rw [hstep, pyGet_pyInsert, if_pos rfl,
                if_pos ⟨List.mem_cons_self k' ks, hskip, hvals⟩]
        · have hstep : pyGet k (if skipKey gk k' then res
              else
                let vals := numericVals k' group
                if vals = [] then res
                else pyInsert k' (Val.num (median vals)) res) = pyGet k res := by
            by_cases hskip : skipKey gk k'
            · simp [hskip]
            · by_cases hvals : numericVals k' group = []
              · simp [hskip, hvals]
              · have : (if skipKey gk k' then res
                    else
                      let vals := numericVals k' group
                      if vals = [] then res
                      else pyInsert k' (Val.num (median vals)) res) =
                    pyInsert k' (Val.num (median (numericVals k' group))) res := by
                  simp [hskip, hvals]
                rw [this, pyGet_pyInsert, if_neg hkk]
          rw [hstep, if_neg (by
            rintro ⟨hmem, hP⟩
            rcases List.mem_cons.mp hmem with rfl | hmem'
            · exact hkk rfl
            · exact h1 ⟨hmem', hP⟩)]

/-- The content of a summary row depends on its group only up to
permutation of the group's member rows. -/
theorem rowContent_mkAggRow (gk : List String) (g : List (Option Val))
    {group group' : List Row} (hp : group.Perm group') :
    rowContent (mkAggRow gk g group) = rowContent (mkAggRow gk g group') := by
  funext k
  have hlen : group.length = group'.length := hp.length_eq
  have hvalsp : (numericVals k group).Perm (numericVals k group') :=
    hp.filterMap _
  have hmed : median (numericVals k group) = median (numericVals k group') :=
    median_perm hvalsp
  have hnil : (numericVals k group = []) ↔ (numericVals k group' = []) := by
    constructor <;> intro h
    · have hl := hvalsp.length_eq
      rw [h] at hl
      exact List.length_eq_zero.mp hl.symm
    · have hl := hvalsp.length_eq
      rw [h] at hl
      exact List.length_eq_zero.mp hl
  have hmemkeys :
      (k ∈ firstOccur (group.flatMap (fun r => r.map Prod.fst))) ↔
        (k ∈ firstOccur (group'.flatMap (fun r => r.map Prod.fst))) := by
    rw [mem_firstOccur, mem_firstOccur]
    simp only [List.mem_flatMap]
    constructor <;> rintro ⟨r, hr, hk⟩
    · exact ⟨r, hp.mem_iff.mp hr, hk⟩
    · exact ⟨r, hp.mem_iff.mpr hr, hk⟩
  simp only [rowContent, mkAggRow]
  rw [pyGet_median_foldl, pyGet_median_foldl]
  by_cases hc : k ∈ firstOccur (group.flatMap (fun r => r.map Prod.fst)) ∧
      ¬ skipKey gk k ∧ numericVals k group ≠ []
  · rw [if_pos hc,
      if_pos ⟨hmemkeys.mp hc.1, hc.2.1, fun h => hc.2.2 (hnil.mpr h)⟩, hmed]
  · rw [if_neg hc, if_neg (by
      rintro ⟨h1, h2, h3⟩
      exact hc ⟨hmemkeys.mpr h1, h2, fun h => h3 (hnil.mp h)⟩)]
    rw [hlen]

/-- Claim C5: aggregation is invariant under permutation of the input
records — the summary rows (compared as the Python dicts they stand for,
i.e. by lookup) form the same multiset, with the same groups, sample
counts and medians — and the median reported for any numeric field of a
singleton group is that record's sole value. -/
theorem aggregate_perm_invariant_and_singleton_median :
    (∀ (rows rows' : List Row) (gk : List String), rows.Perm rows' →
      ((aggregate rows gk).map rowContent).Perm
        ((aggregate rows' gk).map rowContent)) ∧
    (∀ (rows : List Row) (gk : List String) (g : List (Option Val))
        (r : Row) (k : String) (q : ℚ),
      groupRows gk g rows = [r] →
      ¬ skipKey gk k →
      pyGet k r = some (Val.num q) →
      mkAggRow gk g [r] ∈ aggregate rows gk ∧
      pyGet k (mkAggRow gk g [r]) = some (Val.num q)) := by
  constructor
  · intro rows rows' gk h
    rw [aggregate_eq, aggregate_eq, List.map_map, List.map_map]
    have hsig : (groupSigs gk rows).Perm (groupSigs gk rows') :=
      perm_firstOccur (h.map _)
    have hpt : ∀ g ∈ groupSigs gk rows',
        (rowContent ∘ fun g => mkAggRow gk g (groupRows gk g rows)) g =
          (rowContent ∘ fun g => mkAggRow gk g (groupRows gk g rows')) g := by
      intro g _
      exact rowContent_mkAggRow gk g (h.filter _)
    refine (hsig.map _).trans ?_
    rw [List.map_congr_left hpt]
  · intro rows gk g r k q hfilter hskip hval
    have hrmem : r ∈ groupRows gk g rows := by
      rw [hfilter]
      exact List.mem_singleton.mpr rfl
    have hrmem' := List.mem_filter.mp hrmem
    have hsig_r : sigOf gk r = g := of_decide_eq_true hrmem'.2
    have hg : g ∈ groupSigs gk rows := by
      rw [groupSigs, mem_firstOccur]
      exact hsig_r ▸ List.mem_map_of_mem (sigOf gk) hrmem'.1
    constructor
    · rw [aggregate_eq, ← hfilter]
      exact List.mem_map_of_mem (fun g => mkAggRow gk g (groupRows gk g rows)) hg
    · have hmemk : k ∈ firstOccur (([r] : List Row).flatMap
          (fun r => r.map Prod.fst)) := by
        rw [mem_firstOccur]
        simpa using pyGet_some_mem_fst hval
      have hvals : numericVals k [r] = [q] := by
        simp [numericVals, hval]
      simp only [mkAggRow]
      rw [pyGet_median_foldl,
        if_pos ⟨hmemk, hskip, by rw [hvals]; simp⟩, hvals, median_singleton]

theorem pyGet_foldl_pyInsert_not_mem {κ β γ : Type} [DecidableEq κ]
    (f : γ → κ) (v : γ → β) (l : List γ) (res : List (κ × β)) (k : κ)
    (h : ∀ e ∈ l, f e ≠ k) :
    pyGet k (l.foldl (fun res e => pyInsert (f e) (v e) res) res) =
      pyGet k res := by
  induction l generalizing res with
  | nil => rfl
  | cons e es ih =>
      rw [List.foldl_cons,
        ih _ (fun e' he' => h e' (List.mem_cons_of_mem _ he')),
        pyGet_pyInsert, if_neg (h e (List.mem_cons_self _ _))]

/-- Claim C9: a field whose value is present but a string in every record
of a group — never a number — contributes no median: it is absent from the
group's summary row (outside the group-key/sample fields the claim's
`values` mapping excludes). -/
theorem aggregate_all_string_field_omitted
    (rows : List Row) (gk : List String) (g : List (Option Val)) (k : String)
    (hne : groupRows gk g rows ≠ [])
    (hstr : ∀ r ∈ groupRows gk g rows,
      ((pyGet k r).getD Val.pynone).isStr = true)
    (hskip : ¬ skipKey gk k) :
    mkAggRow gk g (groupRows gk g rows) ∈ aggregate rows gk ∧
    pyGet k (mkAggRow gk g (groupRows gk g rows)) = Option.none := by
  have hknotgk : k ∉ gk := fun h => hskip (Or.inl h)
  have hksamples : k ≠ "samples" := fun h => hskip (Or.inr (Or.inr (Or.inl h)))
  constructor
  · obtain ⟨r, hr⟩ := List.exists_mem_of_ne_nil _ hne
    have hrmem' := List.mem_filter.mp hr
    have hsig_r : sigOf gk r = g := of_decide_eq_true hrmem'.2
    have hg : g ∈ groupSigs gk rows := by
      rw [groupSigs, mem_firstOccur]
      exact hsig_r ▸ List.mem_map_of_mem (sigOf gk) hrmem'.1
    rw [aggregate_eq]
    exact List.mem_map_of_mem (fun g => mkAggRow gk g (groupRows gk g rows)) hg
  · have hvals : numericVals k (groupRows gk g rows) = [] := by
      rw [numericVals, List.filterMap_eq_nil_iff]
      intro r hr
      have hv := hstr r hr
      cases hpg : pyGet k r with
      | none => simp
      | some v =>
          rw [hpg] at hv
          cases v with
          | num q => simp [Val.isStr] at hv
          | str s => simp
          | pynone => simp
    simp only [mkAggRow]
    rw [pyGet_median_foldl, if_neg (by
      rintro ⟨-, -, hne'⟩
      exact hne' hvals)]
    rw [pyGet_pyInsert, if_neg (fun h => hksamples h.symm)]
    have hzip : ∀ e ∈ gk.zip g,
        (fun kv : String × Option Val => kv.1) e ≠ k := by
      intro e he hc
      obtain ⟨a, b⟩ := e
      exact hknotgk (hc ▸ (List.of_mem_zip he).1)
    have hbase := pyGet_foldl_pyInsert_not_mem
      (fun kv : String × Option Val => kv.1)
      (fun kv : String × Option Val => kv.2.getD Val.pynone)
      (gk.zip g) [] k hzip
    exact hbase.trans rfl

/-- Witness for `aggregate_perm_invariant_and_singleton_median`: swapping
two records leaves the aggregate unchanged up to permutation, and for the
singleton group of `rowA` the reported `ns_per_op` median is 100. -/
theorem aggregate_perm_singleton_witness :
    ([rowA, rowB] : List Row).Perm [rowB, rowA] ∧
    ((aggregate [rowA, rowB] ["benchmark"]).map rowContent).Perm
      ((aggregate [rowB, rowA] ["benchmark"]).map rowContent) ∧
    groupRows ["benchmark"] [some (Val.str "B")] [rowA] = [rowA] ∧
    ¬ skipKey ["benchmark"] "ns_per_op" ∧
    pyGet "ns_per_op" rowA = some (Val.num 100) ∧
    (mkAggRow ["benchmark"] [some (Val.str "B")] [rowA] ∈
        aggregate [rowA] ["benchmark"] ∧
      pyGet "ns_per_op" (mkAggRow ["benchmark"] [some (Val.str "B")] [rowA]) =
        some (Val.num 100)) := by
  have hperm : ([rowA, rowB] : List Row).Perm [rowB, rowA] :=
    List.Perm.swap rowB rowA []
  exact ⟨hperm,
    aggregate_perm_invariant_and_singleton_median.1 [rowA, rowB] [rowB, rowA]
      ["benchmark"] hperm,
    by decide, by decide, by decide,
    aggregate_perm_invariant_and_singleton_median.2 [rowA] ["benchmark"]
      [some (Val.str "B")] rowA "ns_per_op" 100 (by decide) (by decide)
      (by decide)⟩

/-- Witness for `aggregate_all_string_field_omitted`: the all-string field
`mode` of `rowS`'s group is absent from the summary row. -/
theorem aggregate_all_string_field_omitted_witness :
    groupRows ["benchmark"] [some (Val.str "B")] [rowS] ≠ [] ∧
    (∀ r ∈ groupRows ["benchmark"] [some (Val.str "B")] [rowS],
      ((pyGet "mode" r).getD Val.pynone).isStr = true) ∧
    ¬ skipKey ["benchmark"] "mode" ∧
    (mkAggRow ["benchmark"] [some (Val.str "B")]
        (groupRows ["benchmark"] [some (Val.str "B")] [rowS]) ∈
        aggregate [rowS] ["benchmark"] ∧
      pyGet "mode" (mkAggRow ["benchmark"] [some (Val.str "B")]
        (groupRows ["benchmark"] [some (Val.str "B")] [rowS])) =
        Option.none) :=
  ⟨by decide, by decide, by decide,
   aggregate_all_string_field_omitted [rowS] ["benchmark"]
     [some (Val.str "B")] "mode" (by decide) (by decide) (by decide)⟩
